import Mathlib

/-!
Verification development for the quantum-obfuscation experiment harness.

The Python sources are shallowly embedded:

* `analyze.py` — Outcome Distributions are association lists from bit-string
  key to rational count (Python dicts have unique keys and insertion order;
  real arithmetic is modelled exactly over `ℚ`);
  `total_variation_distance` and `dominant_state_percentile` are translated
  directly.
* `simulation.py` — `build_circuit_with_gate` returns an `Except` mirroring
  the `ValueError` raise; the obfuscation runner is state-passing over the
  two aggregate dictionaries, with the external executor and the random
  source supplied as oracles indexed by trial and attempt.
* `main.py` — the hard-coded expected distributions are transcribed.
-/

namespace QuantumObfuscation

/-- An Outcome Distribution: association list from bit-string outcome to
rational count, embedding the Python `dict` (unique keys). -/
abbrev Dist : Type := List (String × ℚ)

/-- Dictionary access with default `0`, embedding `counts.get(key, 0)`. -/
def getCount : Dist → String → ℚ
  | [], _ => 0
  | (k1, v) :: rest, k => if k = k1 then v else getCount rest k

/-- The key set of a distribution, embedding `set(counts.keys())`. -/
def keySet (A : Dist) : Finset String := (A.map Prod.fst).toFinset

/-- Sum of all counts of a distribution (the shots it was built from,
per the Outcome Distribution invariant). -/
def distTotal (A : Dist) : ℚ := ∑ k in keySet A, getCount A k

/-- Embedding of `analyze.total_variation_distance`: over the union of the
two key sets, sum `|counts[k]/num_shots - reference_counts[k]/num_shots|`
and halve. -/
def total_variation_distance (counts reference_counts : Dist)
    (num_shots : ℚ) : ℚ :=
  (1 / 2) * ∑ k in keySet counts ∪ keySet reference_counts,
    |getCount counts k / num_shots - getCount reference_counts k / num_shots|

/-- Embedding of `analyze.dominant_state_percentile`: sort the counts
descending, sum the largest `top_n`, divide by `num_shots`, scale to a
percentage. -/
def dominant_state_percentile (counts : Dist) (num_shots : ℚ)
    (top_n : ℕ) : ℚ :=
  ((((counts.map Prod.snd).insertionSort (fun a b => a ≥ b)).take top_n).sum
      / num_shots) * 100

lemma getCount_eq_zero_of_not_mem {A : Dist} {k : String}
    (h : k ∉ keySet A) : getCount A k = 0 := by
  induction A with
  | nil => rfl
  | cons p rest ih =>
    obtain ⟨k1, v⟩ := p
    simp only [keySet, List.map_cons, List.toFinset_cons, Finset.mem_insert,
      not_or] at h
    simp only [getCount, if_neg h.1]
    exact ih (by simpa [keySet] using h.2)

lemma getCount_nonneg {A : Dist} (hA : ∀ p ∈ A, 0 ≤ p.2) (k : String) :
    0 ≤ getCount A k := by
  induction A with
  | nil => simp [getCount]
  | cons p rest ih =>
    obtain ⟨k1, v⟩ := p
    simp only [getCount]
    by_cases hk : k = k1
    · simpa [hk] using hA (k1, v) (List.mem_cons_self _ _)
    · simp only [if_neg hk]
      exact ih fun q hq => hA q (List.mem_cons_of_mem _ hq)

lemma sum_getCount_over_superset {A : Dist} {U : Finset String}
    (hU : keySet A ⊆ U) : ∑ k in U, getCount A k = distTotal A := by
  rw [distTotal, Finset.sum_subset hU]
  intro k _ hk
  exact getCount_eq_zero_of_not_mem hk

lemma sum_take_le_sum_take {l : List ℚ} (hl : ∀ x ∈ l, 0 ≤ x) {n m : ℕ}
    (h : n ≤ m) : (l.take n).sum ≤ (l.take m).sum := by
  have hsplit : l.take m = l.take n ++ (l.drop n).take (m - n) := by
    rw [← List.take_add, Nat.add_sub_cancel' h]
  rw [hsplit, List.sum_append]
  refine le_add_of_nonneg_right (List.sum_nonneg fun x hx => ?_)
  exact hl x (List.drop_subset n l (List.take_subset _ _ hx))

lemma sum_take_le_sum {l : List ℚ} (hl : ∀ x ∈ l, 0 ≤ x) (n : ℕ) :
    (l.take n).sum ≤ l.sum := by
  conv_rhs => rw [← List.take_append_drop n l]
  rw [List.sum_append]
  refine le_add_of_nonneg_right (List.sum_nonneg fun x hx => ?_)
  exact hl x (List.drop_subset n l hx)

/-- A composed circuit description: qubit and classical-bit allocation and
the qubit list the gate block was appended on, as produced by
`build_circuit_with_gate`. -/
structure Circuit where
  numQubits : ℕ
  numClbits : ℕ
  gateQubits : List ℤ
  measured : Bool
deriving DecidableEq

/-- Embedding of `simulation.build_circuit_with_gate`: validates the
placement (raising `ValueError("Gate block does not fit within the
circuit.")` on violation, modelled as `Except.error`), allocates `num_qubits`
qubits and `num_qubits` classical bits iff `measure`, and appends the gate
block on `list(range(start_index, start_index + gate.num_qubits))`. -/
def build_circuit_with_gate (num_qubits gate_num_qubits : ℕ)
    (start_index : ℤ) (measure : Bool) : Except String Circuit :=
  if start_index < 0 ∨ start_index + gate_num_qubits > num_qubits then
    Except.error "Gate block does not fit within the circuit."
  else
    Except.ok
      { numQubits := num_qubits
        numClbits := if measure then num_qubits else 0
        gateQubits := (List.range gate_num_qubits).map
          (fun (i : ℕ) => start_index + (i : ℤ))
        measured := measure }

/-- Embedding of `simulation.run_baseline_simulation`'s circuit
construction: the gate block at the fixed canonical `start_index=3` in a
10-qubit circuit, with measurement. -/
def run_baseline_circuit (gate_num_qubits : ℕ) : Except String Circuit :=
  build_circuit_with_gate 10 gate_num_qubits 3 true

/-- A per-trial executor result: association list from outcome string to a
natural-number count, embedding the qiskit counts `dict`. -/
abbrev Counts : Type := List (String × ℕ)

/-- Embedding of `defaultdict(int)` accumulation `res[key] += count`:
add to the entry when the key is present, append it otherwise. -/
def bump : Counts → String → ℕ → Counts
  | [], k, c => [(k, c)]
  | (k1, v) :: rest, k, c =>
    if k = k1 then (k1, v + c) :: rest else (k1, v) :: bump rest k c

/-- Total number of shots recorded in an aggregate. -/
def countsTotal (m : Counts) : ℕ := (m.map Prod.snd).sum

/-- Embedding of Python `random.randint(lo, hi)` (both endpoints included)
applied to a draw `r` from a uniform random source. -/
def randint (lo hi r : ℕ) : ℕ := lo + r % (hi - lo + 1)

/-- Embedding of `start_idx = 3 if static else random.randint(0, 7)` from
`run_obfuscation_simulation`. -/
def chooseOffset (static : Bool) (r : ℕ) : ℕ :=
  if static then 3 else randint 0 7 r

/-- Embedding of the recovered-substring step of
`run_obfuscation_simulation`: `bits = outcome[::-1]`, take
`bits[start_idx + i]` for `i < gate.num_qubits`, and prepend `'0000'` and
append `'000'` to form the recovered aggregate key. -/
def recoveredKey (outcome : String) (start_idx w : ℕ) : String :=
  "0000" ++ String.mk ((outcome.data.reverse.drop start_idx).take w) ++ "000"

/-- Comparator for the refinement claim about the recovered key,
following the spec's words (§4.3.e, §6) and the Expected-Distribution keys
of `main.py`: keep the substring covering the gate block's qubit positions
under the circuit's measurement bit-ordering (qubit 0 is the rightmost
character, so the block occupies string positions `[N-s-w, N-s)`), and
re-position it at the canonical placement used by the Expected keys
(`'0000' + bits + '000'`), preserving the measurement bit order. -/
def specRecoveredKey (outcome : String) (N s w : ℕ) : String :=
  "0000" ++ String.mk ((outcome.data.drop (N - s - w)).take w) ++ "000"

/-- The oracles an obfuscation run interacts with: the gate block's qubit
count, the `static` flag, the random source consumed by
`random.randint` (indexed by trial and attempt, since each retry draws
fresh randomness), and the external executor (indexed by trial, attempt and
shot count; `Except.error` models any exception raised while generating
filler, transpiling or executing). -/
structure RunInput where
  gateNumQubits : ℕ
  static : Bool
  rand : ℕ → ℕ → ℕ
  exec : ℕ → ℕ → ℕ → Except String Counts

/-- One attempt of one trial: choose the start offset, build the circuit
(without measurement) — an invalid placement raises — then generate filler,
measure and execute via the external executor. Returns the offset used and
the per-trial counts. -/
def attemptResult (inp : RunInput) (shots t a : ℕ) :
    Except String (ℕ × Counts) :=
  match build_circuit_with_gate 10 inp.gateNumQubits
      (chooseOffset inp.static (inp.rand t a) : ℤ) false with
  | Except.error e => Except.error e
  | Except.ok _ =>
    match inp.exec t a shots with
    | Except.error e => Except.error e
    | Except.ok counts =>
      Except.ok (chooseOffset inp.static (inp.rand t a), counts)

/-- The retry loop of one trial: `fuel` is the number of retries remaining
after the current attempt `a`; at the last attempt
(`attempt == max_retries - 1`) the failure is re-raised. -/
def runAttempts (inp : RunInput) (shots t : ℕ) :
    ℕ → ℕ → Except String (ℕ × Counts)
  | a, 0 => attemptResult inp shots t a
  | a, fuel + 1 =>
    match attemptResult inp shots t a with
    | Except.ok r => Except.ok r
    | Except.error _ => runAttempts inp shots t (a + 1) fuel

/-- One trial under the retry policy `max_retries = 10`. -/
def runTrial (inp : RunInput) (shots t : ℕ) : Except String (ℕ × Counts) :=
  runAttempts inp shots t 0 9

/-- Folding one outcome into the two aggregates: `res[outcome] += count`
and `recovered_res['0000' + result_bits + '000'] += count`. -/
def foldOutcome (start_idx w : ℕ) (acc : Counts × Counts)
    (p : String × ℕ) : Counts × Counts :=
  (bump acc.1 p.1 p.2, bump acc.2 (recoveredKey p.1 start_idx w) p.2)

/-- Folding one successful trial's counts into the two aggregates. -/
def foldTrial (start_idx w : ℕ) (acc : Counts × Counts)
    (counts : Counts) : Counts × Counts :=
  counts.foldl (foldOutcome start_idx w) acc

/-- The trial loop: run trials `t, t+1, …, t+k-1`, folding each successful
trial into the aggregates; a trial that exhausts its retries re-raises and
aborts the whole run. -/
def runTrialsFrom (inp : RunInput) (interval : ℕ) :
    ℕ → ℕ → Counts × Counts → Except String (Counts × Counts)
  | _, 0, acc => Except.ok acc
  | t, k + 1, acc =>
    match runTrial inp interval t with
    | Except.error e => Except.error e
    | Except.ok (start_idx, counts) =>
      runTrialsFrom inp interval (t + 1) k
        (foldTrial start_idx inp.gateNumQubits acc counts)

/-- Embedding of `simulation.run_obfuscation_simulation`: run
`num_shots // obfuscation_interval` trials of `obfuscation_interval` shots
each and return the pair (raw aggregate, recovered aggregate). -/
def run_obfuscation_simulation (num_shots obfuscation_interval : ℕ)
    (inp : RunInput) : Except String (Counts × Counts) :=
  runTrialsFrom inp obfuscation_interval 0
    (num_shots / obfuscation_interval) ([], [])

/-- `NUM_SHOTS` from `main.py`. -/
def NUM_SHOTS : ℚ := 5000

/-- `ghz_expected` from `main.py`. -/
def ghz_expected : Dist :=
  [("0000000000", NUM_SHOTS / 2), ("0000111000", NUM_SHOTS / 2)]

/-- `w_expected` from `main.py`. -/
def w_expected : Dist :=
  [("0000100000", NUM_SHOTS / 3), ("0000010000", NUM_SHOTS / 3),
    ("0000001000", NUM_SHOTS / 3)]

/-- `grover_expected` from `main.py`. -/
def grover_expected : Dist := [("0000111000", NUM_SHOTS)]

/-- `qft_expected` from `main.py` (the loop over `b4`, `b5`, `b6`). -/
def qft_expected : Dist :=
  [("0000000000", NUM_SHOTS / 8), ("0000001000", NUM_SHOTS / 8),
    ("0000010000", NUM_SHOTS / 8), ("0000011000", NUM_SHOTS / 8),
    ("0000100000", NUM_SHOTS / 8), ("0000101000", NUM_SHOTS / 8),
    ("0000110000", NUM_SHOTS / 8), ("0000111000", NUM_SHOTS / 8)]

/-- C6. `total_variation_distance` is symmetric: for every pair of outcome
distributions `A` and `B` and every `shots > 0`,
`total_variation_distance A B shots = total_variation_distance B A shots`. -/
theorem tvd_symm (A B : Dist) (shots : ℚ) (_hs : 0 < shots) :
    total_variation_distance A B shots = total_variation_distance B A shots := by
  rw [total_variation_distance, total_variation_distance, Finset.union_comm]
  exact congrArg _ (Finset.sum_congr rfl fun k _ => abs_sub_comm _ _)

/-- Witness for C6 at a concrete input. -/
theorem tvd_symm_witness :
    (0 : ℚ) < 1 ∧ total_variation_distance [("0", 1)] [] 1 =
      total_variation_distance [] [("0", 1)] 1 :=
  ⟨by norm_num, tvd_symm [("0", 1)] [] 1 (by norm_num)⟩

/-- C7. `total_variation_distance A A shots = 0`, and more generally the
distance is zero exactly when `A` and `B` have identical frequencies at every
key of the union of their key sets (under the same shots denominator). -/
theorem tvd_self_and_zero_iff (A B : Dist) (shots : ℚ) (_hs : 0 < shots) :
    total_variation_distance A A shots = 0 ∧
    (total_variation_distance A B shots = 0 ↔
      ∀ k ∈ keySet A ∪ keySet B,
        getCount A k / shots = getCount B k / shots) := by
  constructor
  · simp [total_variation_distance]
  · rw [total_variation_distance, mul_eq_zero,
      or_iff_right (by norm_num : ¬(1 : ℚ) / 2 = 0),
      Finset.sum_eq_zero_iff_of_nonneg fun k _ => abs_nonneg _]
    refine forall_congr' fun k => imp_congr_right fun _ => ?_
    rw [abs_eq_zero, sub_eq_zero]

/-- Witness for C7 at a concrete input. -/
theorem tvd_self_and_zero_iff_witness :
    (0 : ℚ) < 2 ∧
    (total_variation_distance [("0", 2)] [("0", 2)] 2 = 0 ∧
      (total_variation_distance [("0", 2)] [("1", 2)] 2 = 0 ↔
        ∀ k ∈ keySet [("0", 2)] ∪ keySet [("1", 2)],
          getCount [("0", 2)] k / 2 = getCount [("1", 2)] k / 2)) :=
  ⟨by norm_num, tvd_self_and_zero_iff [("0", 2)] [("1", 2)] 2 (by norm_num)⟩

/-- Counterexample to C8 as stated: with unconstrained dictionaries the
distance is not bounded by 1. At `A = {"1": 4}`, `B = {}`, `shots = 1`
(a positive shot count) the code computes the value 2. -/
theorem tvd_range_counterexample :
    (0 : ℚ) < 1 ∧ ¬ total_variation_distance [("1", 4)] [] 1 ≤ 1 := by
  constructor
  · norm_num
  · rw [total_variation_distance,
      show keySet [("1", 4)] ∪ keySet [] = {"1"} from rfl,
      Finset.sum_singleton]
    norm_num [getCount]

/-- C8 (amended). For distributions `A` and `B` whose counts are
non-negative and each sum to `shots` — the Outcome Distribution invariant —
and `shots > 0`, `0 ≤ total_variation_distance A B shots ≤ 1`. -/
theorem tvd_range_of_invariant (A B : Dist) (shots : ℚ) (hs : 0 < shots)
    (hA : ∀ p ∈ A, 0 ≤ p.2) (hB : ∀ p ∈ B, 0 ≤ p.2)
    (hAtot : distTotal A = shots) (hBtot : distTotal B = shots) :
    0 ≤ total_variation_distance A B shots ∧
      total_variation_distance A B shots ≤ 1 := by
  constructor
  · exact mul_nonneg (by norm_num)
      (Finset.sum_nonneg fun k _ => abs_nonneg _)
  · rw [total_variation_distance]
    have hterm : ∀ k ∈ keySet A ∪ keySet B,
        |getCount A k / shots - getCount B k / shots| ≤
          getCount A k / shots + getCount B k / shots := by
      intro k _
      calc |getCount A k / shots - getCount B k / shots|
          ≤ |getCount A k / shots| + |getCount B k / shots| := abs_sub _ _
        _ = getCount A k / shots + getCount B k / shots := by
            rw [abs_of_nonneg (div_nonneg (getCount_nonneg hA k) hs.le),
              abs_of_nonneg (div_nonneg (getCount_nonneg hB k) hs.le)]
    have hsum : (∑ k in keySet A ∪ keySet B,
        |getCount A k / shots - getCount B k / shots|) ≤ 2 := by
      calc (∑ k in keySet A ∪ keySet B,
            |getCount A k / shots - getCount B k / shots|)
          ≤ ∑ k in keySet A ∪ keySet B,
              (getCount A k / shots + getCount B k / shots) :=
            Finset.sum_le_sum hterm
        _ = (∑ k in keySet A ∪ keySet B, getCount A k) / shots +
              (∑ k in keySet A ∪ keySet B, getCount B k) / shots := by
            rw [Finset.sum_add_distrib, Finset.sum_div, Finset.sum_div]
        _ = 2 := by
            rw [sum_getCount_over_superset Finset.subset_union_left,
              sum_getCount_over_superset Finset.subset_union_right,
              hAtot, hBtot, div_self hs.ne.symm]
            norm_num
    calc (1 / 2 : ℚ) * ∑ k in keySet A ∪ keySet B,
          |getCount A k / shots - getCount B k / shots|
        ≤ (1 / 2 : ℚ) * 2 := by
          exact mul_le_mul_of_nonneg_left hsum (by norm_num)
      _ = 1 := by norm_num

/-- Witness for C8 (amended) at a concrete input. -/
theorem tvd_range_of_invariant_witness :
    0 ≤ total_variation_distance [("0", 2)] [("1", 2)] 2 ∧
      total_variation_distance [("0", 2)] [("1", 2)] 2 ≤ 1 :=
  tvd_range_of_invariant [("0", 2)] [("1", 2)] 2 (by norm_num)
    (by intro p hp; rw [List.mem_singleton] at hp; subst hp; norm_num)
    (by intro p hp; rw [List.mem_singleton] at hp; subst hp; norm_num)
    (by rw [distTotal, show keySet [("0", 2)] = {"0"} from rfl,
          Finset.sum_singleton]
        norm_num [getCount])
    (by rw [distTotal, show keySet [("1", 2)] = {"1"} from rfl,
          Finset.sum_singleton]
        norm_num [getCount])

/-- Counterexample to C9 as stated: with only non-negative counts (no bound
relating the counts to `shots`) the percentage is not bounded by 100: at
`A = {"1": 4}`, `shots = 1`, `top_n = 1` the code computes 400. -/
theorem dominant_mass_counterexample :
    (0 : ℚ) < 1 ∧ (∀ p ∈ ([("1", 4)] : Dist), 0 ≤ p.2) ∧
      ¬ dominant_state_percentile [("1", 4)] 1 1 ≤ 100 := by
  refine ⟨by norm_num, ?_, ?_⟩
  · intro p hp; rw [List.mem_singleton] at hp; subst hp; norm_num
  · norm_num [dominant_state_percentile, List.insertionSort]

/-- C9 (amended). For a distribution with non-negative counts and
`shots > 0`: `dominant_state_percentile` is monotone in `top_n`; it sums the
largest `top_n` values of a descending sort of the counts (a permutation of
the counts), divides by `shots` and scales to a percentage, with `top_n`
beyond the number of distinct keys permitted; it is non-negative, and it is
at most 100 whenever the counts total at most `shots` (the Outcome
Distribution invariant). -/
theorem dominant_mass_props (A : Dist) (shots : ℚ) (hs : 0 < shots)
    (hA : ∀ p ∈ A, 0 ≤ p.2) (n m : ℕ) (_h1 : 1 ≤ n) (hnm : n ≤ m) :
    dominant_state_percentile A shots n ≤ dominant_state_percentile A shots m ∧
    List.Sorted (fun a b => a ≥ b)
      ((A.map Prod.snd).insertionSort (fun a b => a ≥ b)) ∧
    ((A.map Prod.snd).insertionSort (fun a b => a ≥ b)).Perm
      (A.map Prod.snd) ∧
    dominant_state_percentile A shots n =
      ((((A.map Prod.snd).insertionSort (fun a b => a ≥ b)).take n).sum
        / shots) * 100 ∧
    0 ≤ dominant_state_percentile A shots n ∧
    ((A.map Prod.snd).sum ≤ shots →
      dominant_state_percentile A shots n ≤ 100) := by
  have hvals : ∀ x ∈ (A.map Prod.snd).insertionSort (fun a b => a ≥ b),
      (0 : ℚ) ≤ x := by
    intro x hx
    rw [(List.perm_insertionSort _ _).mem_iff, List.mem_map] at hx
    obtain ⟨p, hp, rfl⟩ := hx
    exact hA p hp
  refine ⟨?_, List.sorted_insertionSort _ _, List.perm_insertionSort _ _,
    rfl, ?_, ?_⟩
  · rw [dominant_state_percentile, dominant_state_percentile]
    exact mul_le_mul_of_nonneg_right
      (div_le_div_of_nonneg_right (sum_take_le_sum_take hvals hnm) hs.le)
      (by norm_num)
  · exact mul_nonneg
      (div_nonneg (List.sum_nonneg fun x hx =>
        hvals x (List.take_subset _ _ hx)) hs.le) (by norm_num)
  · intro htot
    rw [dominant_state_percentile]
    have hsum : (((A.map Prod.snd).insertionSort
        (fun a b => a ≥ b)).take n).sum ≤ shots := by
      calc (((A.map Prod.snd).insertionSort (fun a b => a ≥ b)).take n).sum
          ≤ ((A.map Prod.snd).insertionSort (fun a b => a ≥ b)).sum :=
            sum_take_le_sum hvals n
        _ = (A.map Prod.snd).sum := (List.perm_insertionSort _ _).sum_eq
        _ ≤ shots := htot
    calc (((A.map Prod.snd).insertionSort (fun a b => a ≥ b)).take n).sum
          / shots * 100
        ≤ 1 * 100 := by
          exact mul_le_mul_of_nonneg_right
            ((div_le_one hs).mpr hsum) (by norm_num)
      _ = 100 := by norm_num

/-- Witness for C9 (amended) at a concrete input. -/
theorem dominant_mass_props_witness :
    dominant_state_percentile [("0", 2)] 2 1 ≤
      dominant_state_percentile [("0", 2)] 2 2 ∧
    List.Sorted (fun a b => a ≥ b)
      (((([("0", 2)] : Dist)).map Prod.snd).insertionSort (fun a b => a ≥ b)) ∧
    (((([("0", 2)] : Dist)).map Prod.snd).insertionSort (fun a b => a ≥ b)).Perm
      ((([("0", 2)] : Dist)).map Prod.snd) ∧
    dominant_state_percentile [("0", 2)] 2 1 =
      ((((([("0", 2)] : Dist)).map Prod.snd).insertionSort
          (fun a b => a ≥ b)).take 1).sum / 2 * 100 ∧
    0 ≤ dominant_state_percentile [("0", 2)] 2 1 ∧
    (((([("0", 2)] : Dist)).map Prod.snd).sum ≤ 2 →
      dominant_state_percentile [("0", 2)] 2 1 ≤ 100) :=
  dominant_mass_props [("0", 2)] 2 (by norm_num)
    (by intro p hp; rw [List.mem_singleton] at hp; subst hp; norm_num)
    1 2 (by norm_num) (by norm_num)

/-- C1. `build_circuit_with_gate` succeeds exactly when `0 ≤ s` and
`s + w ≤ N`; on every invalid placement it fails with the invalid-placement
`ValueError` (before any execution — the function only constructs the
circuit); on success the circuit has `N` qubits, `N` classical bits iff
`measure`, and the gate block is appended on qubits `[s, s+w)`. -/
theorem compose_placement_spec (N w : ℕ) (s : ℤ) (measure : Bool) :
    ((∃ c, build_circuit_with_gate N w s measure = Except.ok c) ↔
      0 ≤ s ∧ s + w ≤ N) ∧
    (∀ c, build_circuit_with_gate N w s measure = Except.ok c →
      c.numQubits = N ∧
      c.numClbits = (if measure then N else 0) ∧
      c.gateQubits = (List.range w).map (fun (i : ℕ) => s + (i : ℤ)) ∧
      (∀ q : ℤ, q ∈ c.gateQubits ↔ s ≤ q ∧ q < s + w)) ∧
    (¬(0 ≤ s ∧ s + w ≤ N) →
      build_circuit_with_gate N w s measure =
        Except.error "Gate block does not fit within the circuit.") := by
  by_cases h : s < 0 ∨ s + (w : ℤ) > (N : ℤ)
  · have hbuild : build_circuit_with_gate N w s measure =
        Except.error "Gate block does not fit within the circuit." := by
      rw [build_circuit_with_gate, if_pos h]
    refine ⟨?_, ?_, fun _ => hbuild⟩
    · constructor
      · rintro ⟨c, hc⟩
        rw [hbuild] at hc
        exact absurd hc (by simp)
      · intro hb
        omega
    · intro c hc
      rw [hbuild] at hc
      exact absurd hc (by simp)
  · push_neg at h
    have hbuild : build_circuit_with_gate N w s measure = Except.ok
        { numQubits := N
          numClbits := if measure then N else 0
          gateQubits := (List.range w).map (fun (i : ℕ) => s + (i : ℤ))
          measured := measure } := by
      rw [build_circuit_with_gate, if_neg (by push_neg; exact h)]
    refine ⟨⟨fun _ => ⟨h.1, h.2⟩, fun _ => ⟨_, hbuild⟩⟩, ?_, fun hb => absurd ⟨h.1, h.2⟩ hb⟩
    intro c hc
    rw [hbuild] at hc
    obtain rfl : _ = c := Except.ok.inj hc
    refine ⟨rfl, rfl, rfl, fun q => ?_⟩
    constructor
    · intro hq
      obtain ⟨i, hi, rfl⟩ := List.mem_map.mp hq
      rw [List.mem_range] at hi
      have hi0 : (0 : ℤ) ≤ (i : ℤ) := Int.natCast_nonneg i
      have hiw : (i : ℤ) < (w : ℤ) := by exact_mod_cast hi
      omega
    · rintro ⟨h1, h2⟩
      have h0 : (0 : ℤ) ≤ q - s := by omega
      have hcast : ((q - s).toNat : ℤ) = q - s := Int.toNat_of_nonneg h0
      refine List.mem_map.mpr ⟨(q - s).toNat, List.mem_range.mpr ?_, by omega⟩
      have hlt : ((q - s).toNat : ℤ) < (w : ℤ) := by omega
      exact_mod_cast hlt

/-- Witness for C1: the canonical valid placement `(N, s, w) = (10, 3, 3)`
succeeds, and the invalid `s = -1` fails with the invalid-placement error. -/
theorem compose_placement_spec_witness :
    (∃ c, build_circuit_with_gate 10 3 3 true = Except.ok c) ∧
    build_circuit_with_gate 10 3 (-1) true =
      Except.error "Gate block does not fit within the circuit." :=
  ⟨(compose_placement_spec 10 3 3 true).1.mpr (by norm_num),
    (compose_placement_spec 10 3 (-1) true).2.2 (by norm_num)⟩

/-- Counterexample to C5 as stated: for a gate block of width `w = 2` in the
10-qubit circuit, the offset 8 is a valid placement offset
(`8 ≤ N - w = 10 - 2`), yet the dynamic mode can never draw it: the code
hard-codes `random.randint(0, 7)` independently of the block width. -/
theorem dynamic_offset_counterexample :
    (2 : ℕ) ≤ 10 ∧ (8 : ℕ) ≤ 10 - 2 ∧
      ¬ ∃ r : ℕ, chooseOffset false r = 8 := by
  refine ⟨by norm_num, by norm_num, ?_⟩
  rintro ⟨r, hr⟩
  rw [chooseOffset, if_neg (by simp), randint] at hr
  omega

/-- C5 (amended). In static mode every trial uses the canonical baseline
offset 3 (the offset of `run_baseline_simulation`); in dynamic mode the
offset is drawn from `random.randint(0, 7)`: exactly the values
`{0, …, 7}` are possible, each hit by exactly one residue of the uniform
source modulo 8 (uniformity), and `{0, …, 7}` coincides with the full valid
set `{0, …, N - w}` precisely for the program's configuration
`N = 10`, `w = 3`. -/
theorem offset_choice_props :
    (∀ r : ℕ, chooseOffset true r = 3) ∧
    (∀ w : ℕ, w ≤ 7 → ∃ c, run_baseline_circuit w = Except.ok c ∧
      c.gateQubits = (List.range w).map (fun (i : ℕ) => (3 : ℤ) + (i : ℤ))) ∧
    (∀ v : ℕ, (∃ r : ℕ, chooseOffset false r = v) ↔ v ≤ 7) ∧
    (∀ r1 r2 : ℕ, r1 < 8 → r2 < 8 →
      chooseOffset false r1 = chooseOffset false r2 → r1 = r2) ∧
    ((10 : ℕ) - 3 = 7) := by
  have hdyn : ∀ r : ℕ, chooseOffset false r = r % 8 := by
    intro r
    rw [chooseOffset, if_neg (by simp), randint]
    omega
  refine ⟨fun r => rfl, ?_, ?_, ?_, rfl⟩
  · intro w hw
    obtain ⟨c, hc⟩ : ∃ c, run_baseline_circuit w = Except.ok c :=
      (compose_placement_spec 10 w 3 true).1.mpr ⟨by norm_num, by omega⟩
    exact ⟨c, hc, ((compose_placement_spec 10 w 3 true).2.1 c hc).2.2.1⟩
  · intro v
    constructor
    · rintro ⟨r, hr⟩
      rw [hdyn] at hr
      omega
    · intro hv
      exact ⟨v, by rw [hdyn]; omega⟩
  · intro r1 r2 h1 h2 heq
    rw [hdyn, hdyn, Nat.mod_eq_of_lt h1, Nat.mod_eq_of_lt h2] at heq
    exact heq

/-- Witness for C5 (amended): the static offset at a sample draw, the
baseline circuit for the width-3 block, and the extreme dynamic draw 7. -/
theorem offset_choice_props_witness :
    chooseOffset true 5 = 3 ∧
    (∃ c, run_baseline_circuit 3 = Except.ok c ∧
      c.gateQubits = (List.range 3).map (fun (i : ℕ) => (3 : ℤ) + (i : ℤ))) ∧
    (∃ r : ℕ, chooseOffset false r = 7) :=
  ⟨offset_choice_props.1 5, offset_choice_props.2.1 3 (by norm_num),
    (offset_choice_props.2.2.1 7).mpr (by norm_num)⟩

lemma reverse_extract_eq (l : List Char) (s w : ℕ) (h : s + w ≤ l.length) :
    (l.reverse.drop s).take w =
      ((l.drop (l.length - s - w)).take w).reverse := by
  apply List.ext_getElem
  · simp only [List.length_take, List.length_drop, List.length_reverse]
    omega
  · intro i h1 h2
    simp only [List.length_take, List.length_drop, List.length_reverse] at h1 h2
    simp only [List.getElem_take, List.getElem_drop, List.getElem_reverse,
      List.length_take, List.length_drop]
    congr 1
    omega

/-- Counterexample to C2 as stated: at the program's own configuration
`(N, s, w) = (10, 3, 3)`, for the outcome in which only qubit 3 (the first
gate-block qubit) measured 1, the code folds the key `"0000100000"`, while
the key under the circuit's measurement bit-ordering convention positioned
as the Expected-Distribution keys is `"0000001000"`; moreover for a
width-4 block the code's key has length 11 while every Expected key
(e.g. in `ghz_expected`) has length 10, so it is not even comparable. -/
theorem recovered_key_counterexample :
    recoveredKey "0000001000" 3 3 = "0000100000" ∧
    specRecoveredKey "0000001000" 10 3 3 = "0000001000" ∧
    recoveredKey "0000001000" 3 3 ≠ specRecoveredKey "0000001000" 10 3 3 ∧
    (recoveredKey "0000000000" 0 4).length = 11 ∧
    ((ghz_expected.map Prod.fst).all fun k => k.length == 10) = true := by
  exact ⟨by decide, by decide, by decide, by decide, by decide⟩

/-- C2 (amended). For every outcome string the runner extracts exactly the
bits of the gate block's qubits `[s, s+w)` — but in ascending-qubit order,
which is the reversal of the measurement bit-ordering used by the raw and
Expected keys — and folds them into the hard-coded padding
`'0000' + bits + '000'`; the key has length `w + 7` (so it can match the
10-character Expected keys only when `w = 3`), and it coincides with the
measurement-convention key `specRecoveredKey` exactly on substrings that
are their own reverse. -/
theorem recovered_key_characterization (o : String) (s w : ℕ)
    (hsw : s + w ≤ o.data.length) :
    recoveredKey o s w =
      "0000" ++
        String.mk (((o.data.drop (o.data.length - s - w)).take w).reverse) ++
        "000" ∧
    (recoveredKey o s w).length = w + 7 ∧
    (w ≠ 3 → (recoveredKey o s w).length ≠ 10) ∧
    ((((o.data.drop (o.data.length - s - w)).take w).reverse =
        (o.data.drop (o.data.length - s - w)).take w) →
      recoveredKey o s w = specRecoveredKey o o.data.length s w) := by
  have hrev := reverse_extract_eq o.data s w hsw
  have hlen : (recoveredKey o s w).length = w + 7 := by
    rw [recoveredKey, String.length_append, String.length_append]
    have hm : (String.mk ((o.data.reverse.drop s).take w)).length = w := by
      simp only [String.length_mk, List.length_take, List.length_drop,
        List.length_reverse]
      omega
    rw [hm, show ("0000" : String).length = 4 from by decide,
      show ("000" : String).length = 3 from by decide]
    omega
  refine ⟨by rw [recoveredKey, hrev], hlen, fun hw => by omega, fun hpal => ?_⟩
  rw [recoveredKey, hrev, hpal, specRecoveredKey]

/-- Witness for C2 (amended): the symmetric GHZ outcome `"0000111000"`
(block bits `111`, a palindrome) at the canonical placement does coincide
with the measurement-convention key. -/
theorem recovered_key_characterization_witness :
    recoveredKey "0000111000" 3 3 = specRecoveredKey "0000111000" 10 3 3 :=
  (recovered_key_characterization "0000111000" 3 3 (by decide)).2.2.2
    (by decide)

lemma countsTotal_cons (p : String × ℕ) (rest : Counts) :
    countsTotal (p :: rest) = p.2 + countsTotal rest := by
  simp [countsTotal]

lemma countsTotal_bump (m : Counts) (k : String) (c : ℕ) :
    countsTotal (bump m k c) = countsTotal m + c := by
  induction m with
  | nil => simp [bump, countsTotal]
  | cons p rest ih =>
    obtain ⟨k1, v⟩ := p
    rw [bump]
    by_cases hk : k = k1
    · rw [if_pos hk, countsTotal_cons, countsTotal_cons]
      omega
    · rw [if_neg hk, countsTotal_cons, countsTotal_cons, ih]
      omega

lemma foldTrial_totals (s w : ℕ) (c : Counts) (acc : Counts × Counts) :
    countsTotal (foldTrial s w acc c).1 = countsTotal acc.1 + countsTotal c ∧
    countsTotal (foldTrial s w acc c).2 = countsTotal acc.2 + countsTotal c := by
  induction c generalizing acc with
  | nil => simp [foldTrial, countsTotal]
  | cons p rest ih =>
    have hstep : foldTrial s w acc (p :: rest) =
        foldTrial s w (foldOutcome s w acc p) rest := rfl
    have h := ih (foldOutcome s w acc p)
    rw [hstep, h.1, h.2, foldOutcome, countsTotal_cons]
    constructor
    · show countsTotal (bump acc.1 p.1 p.2) + countsTotal rest = _
      rw [countsTotal_bump]
      omega
    · show countsTotal (bump acc.2 (recoveredKey p.1 s w) p.2) +
        countsTotal rest = _
      rw [countsTotal_bump]
      omega

lemma attemptResult_exec_ok {inp : RunInput} {shots t a s : ℕ} {c : Counts}
    (h : attemptResult inp shots t a = Except.ok (s, c)) :
    inp.exec t a shots = Except.ok c := by
  rw [attemptResult] at h
  cases hb : build_circuit_with_gate 10 inp.gateNumQubits
      (chooseOffset inp.static (inp.rand t a) : ℤ) false with
  | error e => rw [hb] at h; exact absurd h (by simp)
  | ok cir =>
    rw [hb] at h
    cases he : inp.exec t a shots with
    | error e => rw [he] at h; exact absurd h (by simp)
    | ok cc =>
      rw [he] at h
      simp only [Except.ok.injEq, Prod.mk.injEq] at h
      rw [h.2]

lemma runAttempts_ok_elim {inp : RunInput} {shots t : ℕ} {r : ℕ × Counts} :
    ∀ {fuel a : ℕ}, runAttempts inp shots t a fuel = Except.ok r →
      ∃ i, i ≤ fuel ∧ attemptResult inp shots t (a + i) = Except.ok r := by
  intro fuel
  induction fuel with
  | zero =>
    intro a h
    exact ⟨0, Nat.le_refl 0, h⟩
  | succ fuel ih =>
    intro a h
    rw [runAttempts] at h
    cases ha : attemptResult inp shots t a with
    | ok r0 =>
      rw [ha] at h
      exact ⟨0, Nat.zero_le _, ha.trans h⟩
    | error e =>
      rw [ha] at h
      obtain ⟨i, hi, hatt⟩ := ih h
      refine ⟨i + 1, by omega, ?_⟩
      rw [show a + (i + 1) = a + 1 + i by omega]
      exact hatt

lemma runAttempts_ok_intro {inp : RunInput} {shots t : ℕ} :
    ∀ {fuel a : ℕ},
      (∃ i, i ≤ fuel ∧ ∃ rc, attemptResult inp shots t (a + i) = Except.ok rc) →
      ∃ rc, runAttempts inp shots t a fuel = Except.ok rc := by
  intro fuel
  induction fuel with
  | zero =>
    rintro a ⟨i, hi, rc, hrc⟩
    obtain rfl : i = 0 := by omega
    exact ⟨rc, hrc⟩
  | succ fuel ih =>
    rintro a ⟨i, hi, rc, hrc⟩
    cases ha : attemptResult inp shots t a with
    | ok r0 => exact ⟨r0, by rw [runAttempts, ha]⟩
    | error e =>
      have hi0 : i ≠ 0 := by
        rintro rfl
        rw [Nat.add_zero] at hrc
        rw [ha] at hrc
        exact absurd hrc (by simp)
      obtain ⟨j, rfl⟩ : ∃ j, i = j + 1 := ⟨i - 1, by omega⟩
      obtain ⟨rc2, hrc2⟩ := ih (a := a + 1)
        ⟨j, by omega, rc,
          (by rw [show a + 1 + j = a + (j + 1) by omega]; exact hrc :
            attemptResult inp shots t (a + 1 + j) = Except.ok rc)⟩
      refine ⟨rc2, ?_⟩
      rw [runAttempts, ha]
      exact hrc2

lemma runAttempts_exhaust {inp : RunInput} {shots t : ℕ} {errf : ℕ → String} :
    ∀ {fuel a : ℕ},
      (∀ i, i ≤ fuel → attemptResult inp shots t (a + i) =
        Except.error (errf (a + i))) →
      runAttempts inp shots t a fuel = Except.error (errf (a + fuel)) := by
  intro fuel
  induction fuel with
  | zero =>
    intro a h
    simpa using h 0 (Nat.le_refl 0)
  | succ fuel ih =>
    intro a h
    have h0 : attemptResult inp shots t a = Except.error (errf a) := by
      simpa using h 0 (Nat.zero_le _)
    rw [runAttempts, h0]
    have := ih (a := a + 1) fun i hi => by
      rw [show a + 1 + i = a + (i + 1) by omega]
      exact h (i + 1) (by omega)
    rw [show a + (fuel + 1) = a + 1 + fuel by omega]
    exact this

lemma runTrial_ok_iff (inp : RunInput) (shots t : ℕ) :
    (∃ rc, runTrial inp shots t = Except.ok rc) ↔
      ∃ a, a < 10 ∧ ∃ rc, attemptResult inp shots t a = Except.ok rc := by
  constructor
  · rintro ⟨rc, hrc⟩
    obtain ⟨i, hi, hatt⟩ := runAttempts_ok_elim hrc
    exact ⟨i, by omega, rc, by simpa using hatt⟩
  · rintro ⟨a, ha, rc, hrc⟩
    exact runAttempts_ok_intro ⟨a, by omega, rc, by simpa using hrc⟩

lemma runTrialsFrom_ok_iff (inp : RunInput) (interval : ℕ) :
    ∀ (k t : ℕ) (acc : Counts × Counts),
      (∃ res, runTrialsFrom inp interval t k acc = Except.ok res) ↔
      ∀ j, t ≤ j → j < t + k → ∃ rc, runTrial inp interval j = Except.ok rc := by
  intro k
  induction k with
  | zero =>
    intro t acc
    constructor
    · intro _ j h1 h2
      omega
    · intro _
      exact ⟨acc, rfl⟩
  | succ k ih =>
    intro t acc
    constructor
    · rintro ⟨res, hres⟩ j h1 h2
      rw [runTrialsFrom] at hres
      cases ht : runTrial inp interval t with
      | error e => rw [ht] at hres; exact absurd hres (by simp)
      | ok rc0 =>
        rw [ht] at hres
        rcases Nat.eq_or_lt_of_le h1 with rfl | hlt
        · exact ⟨rc0, ht⟩
        · obtain ⟨rc0s, rc0c⟩ := rc0
          exact ((ih (t + 1) _).mp ⟨res, hres⟩) j hlt (by omega)
    · intro hall
      obtain ⟨⟨rs, rc⟩, hrt⟩ := hall t (Nat.le_refl t) (by omega)
      rw [runTrialsFrom, hrt]
      exact (ih (t + 1) _).mpr fun j h1 h2 => hall j (by omega) (by omega)

lemma runTrialsFrom_abort (inp : RunInput) (interval : ℕ) (e : String) :
    ∀ (k t : ℕ) (acc : Counts × Counts) (tf : ℕ),
      t ≤ tf → tf < t + k →
      (∀ j, t ≤ j → j < tf → ∃ rc, runTrial inp interval j = Except.ok rc) →
      runTrial inp interval tf = Except.error e →
      runTrialsFrom inp interval t k acc = Except.error e := by
  intro k
  induction k with
  | zero =>
    intro t acc tf h1 h2
    omega
  | succ k ih =>
    intro t acc tf h1 h2 hpre hfail
    rcases Nat.eq_or_lt_of_le h1 with rfl | hlt
    · rw [runTrialsFrom, hfail]
    · obtain ⟨⟨rs, rc⟩, hrt⟩ := hpre t (Nat.le_refl t) hlt
      rw [runTrialsFrom, hrt]
      exact ih (t + 1) _ tf hlt (by omega)
        (fun j hj1 hj2 => hpre j (by omega) hj2) hfail

lemma runTrialsFrom_totals {inp : RunInput} {interval : ℕ}
    (hexec : ∀ t a sh c, inp.exec t a sh = Except.ok c → countsTotal c = sh) :
    ∀ (k t : ℕ) (acc : Counts × Counts) (raw recovered : Counts),
      runTrialsFrom inp interval t k acc = Except.ok (raw, recovered) →
      countsTotal raw = countsTotal acc.1 + k * interval ∧
      countsTotal recovered = countsTotal acc.2 + k * interval := by
  intro k
  induction k with
  | zero =>
    intro t acc raw recovered h
    obtain ⟨h1, h2⟩ : acc.1 = raw ∧ acc.2 = recovered := by
      have := Except.ok.inj h
      exact ⟨by rw [this], by rw [this]⟩
    rw [← h1, ← h2]
    omega
  | succ k ih =>
    intro t acc raw recovered h
    rw [runTrialsFrom] at h
    cases ht : runTrial inp interval t with
    | error e => rw [ht] at h; exact absurd h (by simp)
    | ok rc0 =>
      obtain ⟨rs, rc⟩ := rc0
      rw [ht] at h
      have hshots : countsTotal rc = interval := by
        obtain ⟨i, _, hatt⟩ := runAttempts_ok_elim ht
        exact hexec t (0 + i) interval rc (attemptResult_exec_ok hatt)
      have hfold := foldTrial_totals rs inp.gateNumQubits rc acc
      have := ih (t + 1) _ raw recovered h
      rw [this.1, this.2, hfold.1, hfold.2, hshots]
      constructor <;> ring

lemma runTrialsFrom_totals_eq (inp : RunInput) (interval : ℕ) :
    ∀ (k t : ℕ) (acc : Counts × Counts) (raw recovered : Counts),
      runTrialsFrom inp interval t k acc = Except.ok (raw, recovered) →
      countsTotal acc.1 = countsTotal acc.2 →
      countsTotal raw = countsTotal recovered := by
  intro k
  induction k with
  | zero =>
    intro t acc raw recovered h heq
    obtain ⟨h1, h2⟩ : acc.1 = raw ∧ acc.2 = recovered := by
      have := Except.ok.inj h
      exact ⟨by rw [this], by rw [this]⟩
    rw [← h1, ← h2]
    exact heq
  | succ k ih =>
    intro t acc raw recovered h heq
    rw [runTrialsFrom] at h
    cases ht : runTrial inp interval t with
    | error e => rw [ht] at h; exact absurd h (by simp)
    | ok rc0 =>
      obtain ⟨rs, rc⟩ := rc0
      rw [ht] at h
      have hfold := foldTrial_totals rs inp.gateNumQubits rc acc
      exact ih (t + 1) _ raw recovered h (by rw [hfold.1, hfold.2, heq])

/-- C3. For shot budget `S` and batch size `b > 0`, the runner executes
exactly `S / b` trials of `b` shots each (the remainder is dropped:
`(S / b) * b ≤ S`), and whenever the run completes — given that the
executor returns per-call counts summing to the requested shot count — the
returned pair of aggregates (raw, recovered) each total exactly
`(S / b) * b` successfully-executed shots. -/
theorem run_trials_and_shot_totals (inp : RunInput) (S b : ℕ) (_hb : 0 < b)
    (hexec : ∀ t a sh c, inp.exec t a sh = Except.ok c → countsTotal c = sh)
    (raw recovered : Counts)
    (hrun : run_obfuscation_simulation S b inp = Except.ok (raw, recovered)) :
    countsTotal raw = (S / b) * b ∧
    countsTotal recovered = (S / b) * b ∧
    (S / b) * b ≤ S := by
  have h := runTrialsFrom_totals hexec (S / b) 0 ([], []) raw recovered hrun
  have hz : countsTotal ([] : Counts) = 0 := rfl
  refine ⟨?_, ?_, Nat.div_mul_le_self S b⟩
  · rw [h.1]
    simp [hz]
  · rw [h.2]
    simp [hz]

/-- Witness for C3: a 10-shot budget with batch size 10 (one trial), a
static run whose executor returns all 10 shots on the all-zero outcome. -/
theorem run_trials_and_shot_totals_witness :
    countsTotal [("0000000000", 10)] = 10 / 10 * 10 ∧
    countsTotal [("0000000000", 10)] = 10 / 10 * 10 ∧
    10 / 10 * 10 ≤ 10 :=
  run_trials_and_shot_totals
    { gateNumQubits := 3, static := true, rand := fun _ _ => 0,
      exec := fun _ _ sh => Except.ok [("0000000000", sh)] }
    10 10 (by norm_num)
    (fun t a sh c h => by cases h; simp [countsTotal])
    [("0000000000", 10)] [("0000000000", 10)] rfl

/-- C4. The run completes iff every trial has a successful attempt among
its `K = 10` retries; and a reached trial whose 10 attempts all fail
aborts the entire run with the last (10th) attempt's failure — no partial
pair of aggregates is ever returned on that path. -/
theorem retry_exhaustion_aborts (inp : RunInput) (S b : ℕ)
    (errf : ℕ → String) :
    ((∃ res, run_obfuscation_simulation S b inp = Except.ok res) ↔
      ∀ t, t < S / b → ∃ a, a < 10 ∧
        ∃ rc, attemptResult inp b t a = Except.ok rc) ∧
    (∀ t, t < S / b →
      (∀ j, j < t → ∃ a, a < 10 ∧
        ∃ rc, attemptResult inp b j a = Except.ok rc) →
      (∀ a, a < 10 → attemptResult inp b t a = Except.error (errf a)) →
      run_obfuscation_simulation S b inp = Except.error (errf 9)) := by
  constructor
  · rw [run_obfuscation_simulation, runTrialsFrom_ok_iff inp b (S / b) 0]
    constructor
    · intro hall t ht
      exact (runTrial_ok_iff inp b t).mp (hall t (Nat.zero_le t) (by omega))
    · intro hall j _ hj
      exact (runTrial_ok_iff inp b j).mpr (hall j (by omega))
  · intro t ht hpre hfail
    have htrial : runTrial inp b t = Except.error (errf 9) := by
      have := @runAttempts_exhaust inp b t errf 9 0
        (fun i hi => by simpa using hfail i (by omega))
      simpa using this
    exact runTrialsFrom_abort inp b (errf 9) (S / b) 0 ([], []) t
      (Nat.zero_le t) (by omega)
      (fun j _ hj => (runTrial_ok_iff inp b j).mpr (hpre j hj)) htrial

/-- Witness for C4: a run whose executor always fails aborts with the last
failure after the 10 attempts of its first trial. -/
theorem retry_exhaustion_aborts_witness :
    run_obfuscation_simulation 10 10
      { gateNumQubits := 3, static := true, rand := fun _ _ => 0,
        exec := fun _ _ _ => Except.error "boom" } =
      Except.error "boom" :=
  (retry_exhaustion_aborts
    { gateNumQubits := 3, static := true, rand := fun _ _ => 0,
      exec := fun _ _ _ => Except.error "boom" }
    10 10 (fun _ => "boom")).2 0 (by norm_num)
    (fun j hj => absurd hj (by omega))
    (fun a _ => rfl)

/-- C10. Folding a successful trial preserves equality of the two
aggregates' totals (each outcome's count is added exactly once to each),
and hence whenever `run_obfuscation_simulation` returns, the sum of counts
in the recovered aggregate equals the sum of counts in the raw aggregate. -/
theorem aggregate_totals_equal (inp : RunInput) (S b s w : ℕ)
    (acc : Counts × Counts) (c : Counts) (raw recovered : Counts) :
    (countsTotal acc.1 = countsTotal acc.2 →
      countsTotal (foldTrial s w acc c).1 =
        countsTotal (foldTrial s w acc c).2) ∧
    (run_obfuscation_simulation S b inp = Except.ok (raw, recovered) →
      countsTotal raw = countsTotal recovered) := by
  constructor
  · intro heq
    have h := foldTrial_totals s w c acc
    rw [h.1, h.2, heq]
  · intro hrun
    exact runTrialsFrom_totals_eq inp b (S / b) 0 ([], []) raw recovered
      hrun rfl

/-- Witness for C10: a 2-trial run (20 shots in batches of 10) whose raw
aggregate collects `"1010000000"` and whose recovered aggregate collects
the extracted key; the two totals agree (and so does one concrete fold). -/
theorem aggregate_totals_equal_witness :
    (countsTotal (foldTrial 3 3 ([], []) [("1010000000", 10)]).1 =
      countsTotal (foldTrial 3 3 ([], []) [("1010000000", 10)]).2) ∧
    countsTotal [("1010000000", 20)] = countsTotal [("0000000000", 20)] :=
  ⟨(aggregate_totals_equal
      { gateNumQubits := 3, static := true, rand := fun _ _ => 0,
        exec := fun _ _ sh => Except.ok [("1010000000", sh)] }
      20 10 3 3 ([], []) [("1010000000", 10)]
      [("1010000000", 20)] [("0000000000", 20)]).1 rfl,
   (aggregate_totals_equal
      { gateNumQubits := 3, static := true, rand := fun _ _ => 0,
        exec := fun _ _ sh => Except.ok [("1010000000", sh)] }
      20 10 3 3 ([], []) [("1010000000", 10)]
      [("1010000000", 20)] [("0000000000", 20)]).2 rfl⟩

end QuantumObfuscation
